import Mathlib

/-!
Verification of the paragraph/annotation text-processing engine of an
editor plugin. Documents are modelled as lists of lines, lines as lists
of characters; every function is a direct shallow embedding of the
corresponding source function (editor-ops), with the editor's
`replaceRange` modelled as an explicit document transformation.
-/

namespace Coo

/-- A line of text: a list of characters (JS string). -/
abbrev Str := List Char

/-- A document: a list of lines. -/
abbrev Doc := List Str

/-- Characters of a Lean string literal, for writing concrete lines. -/
def str (s : String) : Str := s.data

/-- Whitespace as matched by JS `\s` / `trim` on the ASCII range. -/
def isWS (c : Char) : Bool :=
  c == ' ' || c == '\t' || c == '\n' || c == '\r' || c == '\x0b' || c == '\x0c'

/-- Strip leading whitespace. -/
def trimL (s : Str) : Str := s.dropWhile isWS

/-- Strip trailing whitespace (JS `trimEnd` / `replace(/\s+$/, "")`). -/
def trimR (s : Str) : Str := (s.reverse.dropWhile isWS).reverse

/-- JS `String.prototype.trim`. -/
def jsTrim (s : Str) : Str := trimR (trimL s)

/-- A line is read at an index; out of range reads give the empty line. -/
def getLine (doc : Doc) (i : Nat) : Str := doc.getD i []

/-- `isEmptyLine`: the trimmed line has zero length. -/
def isEmptyLine (line : Str) : Bool := (jsTrim line).isEmpty

/-- `isAnnotationLine`: the trimmed line starts with `%%` and ends with `%%`. -/
def isAnnotationLine (line : Str) : Bool :=
  let t := jsTrim line
  (str "%%").isPrefixOf t && (str "%%").isSuffixOf t

/-- `isListItem`: the line matches `/^\s*(?:[-*+]|\d+\.)\s/`. -/
def isListItem (line : Str) : Bool :=
  let t := line.dropWhile isWS
  (match t with
   | c :: d :: _ => (c == '-' || c == '*' || c == '+') && isWS d
   | _ => false)
  ||
  (let ds := t.takeWhile Char.isDigit
   !ds.isEmpty &&
     (match t.drop ds.length with
      | '.' :: d :: _ => isWS d
      | _ => false))

/-- Inclusive paragraph bounds. -/
structure ParagraphBounds where
  startLine : Nat
  endLine : Nat
deriving DecidableEq

/-- The backward expansion loop of `findParagraphBounds`: decrement
`startLine` while the previous line is neither blank nor an annotation
marker line, stopping at the document edge. -/
def expandUp (doc : Doc) : Nat → Nat
  | 0 => 0
  | n + 1 =>
    if isEmptyLine (getLine doc n) || isAnnotationLine (getLine doc n) then n + 1
    else expandUp doc n

/-- The forward expansion loop, with explicit fuel
(`totalLines - 1 - endLine` steps remain). -/
def expandDownFuel (doc : Doc) : Nat → Nat → Nat
  | n, 0 => n
  | n, fuel + 1 =>
    if isEmptyLine (getLine doc (n + 1)) || isAnnotationLine (getLine doc (n + 1)) then n
    else expandDownFuel doc (n + 1) fuel

/-- The forward expansion loop of `findParagraphBounds`. -/
def expandDown (doc : Doc) (n : Nat) : Nat := expandDownFuel doc n (doc.length - 1 - n)

/-- `findParagraphBounds`. -/
def findParagraphBounds (doc : Doc) (lineNum : Nat) : Option ParagraphBounds :=
  let currentLine := getLine doc lineNum
  if isEmptyLine currentLine || isAnnotationLine currentLine then none
  else if isListItem currentLine then some ⟨lineNum, lineNum⟩
  else some ⟨expandUp doc lineNum, expandDown doc lineNum⟩

/-- `findParagraphBoundsNear`. -/
def findParagraphBoundsNear (doc : Doc) (lineNum : Nat) : Option ParagraphBounds :=
  match findParagraphBounds doc lineNum with
  | some b => some b
  | none =>
    if 0 < lineNum && isAnnotationLine (getLine doc lineNum) then
      findParagraphBounds doc (lineNum - 1)
    else none

/-- `getParagraphText`: lines `startLine..endLine` joined with newlines. -/
def getParagraphText (doc : Doc) (startLine endLine : Nat) : Str :=
  List.intercalate (str "\n") ((List.range' startLine (endLine + 1 - startLine)).map (getLine doc))

/-- `findAnnotationLine`: `paragraphEndLine + 1` iff that line exists and is
an annotation marker line. -/
def findAnnotationLine (doc : Doc) (paragraphEndLine : Nat) : Option Nat :=
  let nextLine := paragraphEndLine + 1
  if doc.length ≤ nextLine then none
  else if isAnnotationLine (getLine doc nextLine) then some nextLine
  else none

/-- JS `s.slice(2, -2)`. -/
def jsSlice2Neg2 (s : Str) : Str := (s.drop 2).take (s.length - 4)

/-- JS `String.prototype.split` on a single separator character. -/
def splitOnChar (sep : Char) : Str → List Str
  | [] => [[]]
  | c :: rest =>
    match splitOnChar sep rest with
    | [] => [[c]]
    | h :: t => if c == sep then [] :: h :: t else (c :: h) :: t

/-- `parseAnnotations`. -/
def parseAnnotations (line : Str) : List Str :=
  let trimmed := jsTrim line
  let inner := jsTrim (jsSlice2Neg2 trimmed)
  if inner.isEmpty then []
  else ((splitOnChar ',' inner).map jsTrim).filter (fun s => !s.isEmpty)

/-- `formatAnnotations`. -/
def formatAnnotations (anns : List Str) : Str :=
  str "%%" ++ List.intercalate (str ", ") anns ++ str "%%"

/-- A character position in the document. -/
structure Pos where
  line : Nat
  ch : Nat
deriving DecidableEq

/-- One `editor.replaceRange` call: replacement text and the two positions. -/
structure RangeCall where
  repl : Str
  rFrom : Pos
  rTo : Pos
deriving DecidableEq

/-- Split a text into its lines at newline characters. -/
def splitLines (s : Str) : List Str := splitOnChar '\n' s

/-- The effect of one `replaceRange` call on the document. -/
def applyRange (doc : Doc) (call : RangeCall) : Doc :=
  doc.take call.rFrom.line
    ++ splitLines ((getLine doc call.rFrom.line).take call.rFrom.ch
         ++ call.repl
         ++ (getLine doc call.rTo.line).drop call.rTo.ch)
    ++ doc.drop (call.rTo.line + 1)

/-- The merge loop of `appendAnnotations`: push each new item not already
present into a copy of the existing list. -/
def mergeAnnotations (existing newAnns : List Str) : List Str :=
  newAnns.foldl (fun merged ann => if ann ∈ merged then merged else merged ++ [ann]) existing

/-- `appendAnnotations`, with its one `replaceRange` call applied. -/
def appendAnnotations (doc : Doc) (paragraphEndLine : Nat) (newAnns : List Str) : Doc :=
  match findAnnotationLine doc paragraphEndLine with
  | some existingLineNum =>
    let existingLine := getLine doc existingLineNum
    let merged := mergeAnnotations (parseAnnotations existingLine) newAnns
    applyRange doc ⟨formatAnnotations merged, ⟨existingLineNum, 0⟩, ⟨existingLineNum, existingLine.length⟩⟩
  | none =>
    let lineText := getLine doc paragraphEndLine
    applyRange doc ⟨'\n' :: formatAnnotations newAnns, ⟨paragraphEndLine, lineText.length⟩, ⟨paragraphEndLine, lineText.length⟩⟩

/-- A heading line: `/^#{1,6}\s/`. -/
def isHeadingLine (l : Str) : Bool :=
  let hs := l.takeWhile (fun c => c == '#')
  !hs.isEmpty && decide (hs.length ≤ 6) &&
    (match l.drop hs.length with
     | c :: _ => isWS c
     | [] => false)

/-- The heading scan of `gatherSurroundingContext`: nearest heading line
strictly above `startLine`. -/
def headingAbove (doc : Doc) (startLine : Nat) : Option Nat :=
  (List.range startLine).reverse.find? (fun i => isHeadingLine (getLine doc i))

/-- `gatherSurroundingContext`. -/
def gatherSurroundingContext (doc : Doc) (startLine endLine : Nat) : Str :=
  let totalLines := doc.length
  let beforeStart := startLine - 10
  let headingParts : List Str :=
    match headingAbove doc startLine with
    | some h => if h < beforeStart then [getLine doc h] else []
    | none => []
  let beforeLines := (List.range' beforeStart (startLine - beforeStart)).map (getLine doc)
  let beforeParts : List Str :=
    if beforeLines.isEmpty then [] else [List.intercalate (str "\n") beforeLines]
  let afterEnd := min (totalLines - 1) (endLine + 5)
  let afterLines := (List.range' (endLine + 1) (afterEnd + 1 - (endLine + 1))).map (getLine doc)
  let afterParts : List Str :=
    if afterLines.isEmpty then [] else [List.intercalate (str "\n") afterLines]
  jsTrim (List.intercalate (str "\n\n") (headingParts ++ beforeParts ++ afterParts))

/-- A text made of complete brace spans, each followed by a filler:
`chunksText [(p1, f1), (p2, f2)]` is `\x7bp1\x7df1\x7bp2\x7df2`. Used to
state the multi-span behavior of the instruction extractor for texts with
any number of earlier spans. -/
def chunksText : List (Str × Str) → Str
  | [] => []
  | c :: rest => '\x7b' :: (c.1 ++ '\x7d' :: (c.2 ++ chunksText rest))

/-- The scan of `/\{([^}]+)\}/g` over the text: every match as
(start index, payload), left to right, continuing after each match.
Fuel is at least the number of characters left. -/
def scanMatchesFuel : Nat → Str → Nat → List (Nat × Str)
  | 0, _, _ => []
  | _ + 1, [], _ => []
  | fuel + 1, c :: rest, p =>
    if c = '\x7b' ∧ rest.takeWhile (fun x => x != '\x7d') ≠ [] ∧
        (rest.takeWhile (fun x => x != '\x7d')).length < rest.length then
      (p, rest.takeWhile (fun x => x != '\x7d')) ::
        scanMatchesFuel fuel (rest.drop ((rest.takeWhile (fun x => x != '\x7d')).length + 1))
          (p + (rest.takeWhile (fun x => x != '\x7d')).length + 2)
    else scanMatchesFuel fuel rest (p + 1)

/-- All matches of `/\{([^}]+)\}/g` in a text. -/
def scanMatches (s : Str) : List (Nat × Str) := scanMatchesFuel s.length s 0

/-- The result of `extractInstruction`. -/
structure Extracted where
  cleanedText : Str
  instruction : Str
deriving DecidableEq

/-- `extractInstruction`: last `\x7b...\x7d` span wins. -/
def extractInstruction (text : Str) : Option Extracted :=
  match (scanMatches text).getLast? with
  | none => none
  | some (idx, payload) =>
    if payload.isEmpty then none
    else
      let instruction := jsTrim payload
      if instruction.isEmpty then none
      else
        let before := trimR (text.take idx)
        let after := text.drop (idx + payload.length + 2)
        some ⟨trimR (before ++ after), instruction⟩

/-- The decomposition returned by `extractMarkdownPrefix`. -/
structure MarkdownPrefix where
  pfx : Str
  content : Str
deriving DecidableEq

/-- Length of a match of `/^\s*(?:[-*+]|\d+\.)\s+/`, if any. -/
def listMarkerLen (text : Str) : Option Nat :=
  let ws := text.takeWhile isWS
  let t := text.drop ws.length
  let core : Option Nat :=
    match t with
    | c :: _ =>
      if c == '-' || c == '*' || c == '+' then some 1
      else
        let ds := t.takeWhile Char.isDigit
        if ds.isEmpty then none
        else
          match t.drop ds.length with
          | '.' :: _ => some (ds.length + 1)
          | _ => none
    | [] => none
  match core with
  | none => none
  | some k =>
    let wsRun := (t.drop k).takeWhile isWS
    if wsRun.isEmpty then none else some (ws.length + k + wsRun.length)

/-- Length of a match of `/^#{1,6}\s+/`, if any. -/
def headingMarkerLen (text : Str) : Option Nat :=
  let hs := text.takeWhile (fun c => c == '#')
  if hs.isEmpty || decide (6 < hs.length) then none
  else
    let wsRun := (text.drop hs.length).takeWhile isWS
    if wsRun.isEmpty then none else some (hs.length + wsRun.length)

/-- Length of a match of `/^>\s+/`, if any. -/
def quoteMarkerLen (text : Str) : Option Nat :=
  match text with
  | '>' :: rest =>
    let wsRun := rest.takeWhile isWS
    if wsRun.isEmpty then none else some (1 + wsRun.length)
  | _ => none

/-- `extractMarkdownPrefix`: first alternative of the anchored regex wins. -/
def extractMarkdownPrefix (text : Str) : MarkdownPrefix :=
  match listMarkerLen text with
  | some k => ⟨text.take k, text.drop k⟩
  | none =>
    match headingMarkerLen text with
    | some k => ⟨text.take k, text.drop k⟩
    | none =>
      match quoteMarkerLen text with
      | some k => ⟨text.take k, text.drop k⟩
      | none => ⟨[], text⟩

/-- `formatInspireResponse`. -/
def formatInspireResponse (responseText : Str) (indentSize : Nat) : List Str :=
  let indent := List.replicate indentSize ' '
  ((((splitOnChar '\n' responseText).map jsTrim).filter (fun l => !l.isEmpty)).map
    (fun line =>
      let bulletLine := if (str "- ").isPrefixOf line then line else str "- " ++ line
      indent ++ bulletLine))

/-- `replaceParagraphWithInspiration`: the one `replaceRange` call it issues. -/
def replaceParagraphWithInspiration (doc : Doc) (startLine endLine : Nat)
    (newParagraphText : Str) (bulletLines : List Str) : RangeCall :=
  let lastLineText := getLine doc endLine
  ⟨newParagraphText ++ '\n' :: List.intercalate (str "\n") bulletLines,
   ⟨startLine, 0⟩, ⟨endLine, lastLineText.length⟩⟩

/-- `replaceParagraphAndRemoveAnnotations`: the one `replaceRange` call it
issues; the outer line is `annotationLine` when given, else `endLine`. -/
def replaceParagraphAndRemoveAnnotations (doc : Doc) (startLine endLine : Nat)
    (annotationLine : Option Nat) (newText : Str) : RangeCall :=
  let lastLine := annotationLine.getD endLine
  let lastLineText := getLine doc lastLine
  ⟨newText, ⟨startLine, 0⟩, ⟨lastLine, lastLineText.length⟩⟩

/-- The rewrite flow (command callback plus `performRewrite`), with the
completion call's outcome passed in: precondition checks first, the one
mutation only on a successful completion. -/
def rewriteCommand (doc : Doc) (cursorLine : Nat) (completion : Except Str Str) : Doc :=
  match findParagraphBoundsNear doc cursorLine with
  | none => doc
  | some bounds =>
    match findAnnotationLine doc bounds.endLine with
    | none => doc
    | some annotationLineNum =>
      let anns := parseAnnotations (getLine doc annotationLineNum)
      if anns.isEmpty then doc
      else
        match completion with
        | Except.error _ => doc
        | Except.ok rewritten =>
          let paragraphText := getParagraphText doc bounds.startLine bounds.endLine
          let mp := extractMarkdownPrefix paragraphText
          applyRange doc (replaceParagraphAndRemoveAnnotations doc bounds.startLine
            bounds.endLine (some annotationLineNum) (mp.pfx ++ rewritten))

/-- The inspire flow (command callback plus `performInspire`), with the
completion call's outcome passed in. -/
def inspireCommand (doc : Doc) (cursorLine : Nat) (completion : Except Str Str) : Doc :=
  match findParagraphBoundsNear doc cursorLine with
  | none => doc
  | some bounds =>
    let paragraphText := getParagraphText doc bounds.startLine bounds.endLine
    match extractInstruction paragraphText with
    | none => doc
    | some extracted =>
      let mp := extractMarkdownPrefix extracted.cleanedText
      let indentSize := if isListItem extracted.cleanedText then mp.pfx.length else 0
      match completion with
      | Except.error _ => doc
      | Except.ok response =>
        let bulletLines := formatInspireResponse response indentSize
        if bulletLines.isEmpty then doc
        else applyRange doc (replaceParagraphWithInspiration doc bounds.startLine
          bounds.endLine extracted.cleanedText bulletLines)

/-- The three-line scenario document of the spec. -/
def demoDoc : Doc := [str "Line one", str "Line two", str "Line three"]

/-- The context claimed by the spec for C8, written from the claim's words
(plus the final trim the code applies): the nearest heading strictly above
`startLine` as its own segment only when more than 10 lines above, the
lines from `max(0, startLine-10)` to `startLine-1` joined with newlines,
and the lines from `endLine+1` to `min(lastLine, endLine+5)` joined with
newlines, the segments joined by blank-line separators. -/
def contextFromClaim (doc : Doc) (s e : Nat) : Str :=
  let headingSeg : List Str :=
    match headingAbove doc s with
    | some h => if 10 < s - h then [getLine doc h] else []
    | none => []
  let beforeSeg : List Str :=
    if s = 0 then []
    else [List.intercalate (str "\n") ((List.range' (s - 10) (s - (s - 10))).map (getLine doc))]
  let afterSeg : List Str :=
    if e + 2 ≤ doc.length then
      [List.intercalate (str "\n")
        ((List.range' (e + 1) (min (doc.length - 1) (e + 5) + 1 - (e + 1))).map (getLine doc))]
    else []
  jsTrim (List.intercalate (str "\n\n") (headingSeg ++ beforeSeg ++ afterSeg))

theorem length_dropWhile_le (p : Char → Bool) (l : Str) :
    (l.dropWhile p).length ≤ l.length := by
  induction l with
  | nil => simp
  | cons c t ih =>
    rw [List.dropWhile_cons]
    split
    · exact Nat.le_trans ih (Nat.le_succ _)
    · exact Nat.le_refl _

theorem dropWhile_eq_self_of_length (p : Char → Bool) (l : Str)
    (h : (l.dropWhile p).length = l.length) : l.dropWhile p = l := by
  cases l with
  | nil => simp
  | cons c t =>
    by_cases hp : p c = true
    · rw [List.dropWhile_cons, if_pos hp] at h
      exact absurd h (Nat.ne_of_lt (Nat.lt_succ_of_le (length_dropWhile_le p t)))
    · rw [List.dropWhile_cons, if_neg hp]

theorem length_trimL_le (s : Str) : (trimL s).length ≤ s.length :=
  length_dropWhile_le isWS s

theorem length_trimR_le (s : Str) : (trimR s).length ≤ s.length := by
  have := length_dropWhile_le isWS s.reverse
  simpa [trimR] using this

theorem trimL_eq_self_of_length (s : Str) (h : (trimL s).length = s.length) :
    trimL s = s :=
  dropWhile_eq_self_of_length isWS s h

theorem trimR_eq_self_of_length (s : Str) (h : (trimR s).length = s.length) :
    trimR s = s := by
  have h' : (s.reverse.dropWhile isWS).length = s.reverse.length := by
    simpa [trimR] using h
  have := dropWhile_eq_self_of_length isWS s.reverse h'
  simp [trimR, this]

theorem jsTrim_eq_self_split (s : Str) (h : jsTrim s = s) :
    trimL s = s ∧ trimR s = s := by
  have hlen : (jsTrim s).length = s.length := by rw [h]
  have h1 : (jsTrim s).length ≤ (trimL s).length := length_trimR_le (trimL s)
  have h2 : (trimL s).length ≤ s.length := length_trimL_le s
  have hL : trimL s = s := trimL_eq_self_of_length s (Nat.le_antisymm h2 (hlen ▸ h1))
  refine ⟨hL, ?_⟩
  have : trimR s = s := by
    have := h
    rw [jsTrim, hL] at this
    exact this
  exact this

theorem trimL_cons_of_not_ws (c : Char) (s : Str) (h : isWS c = false) :
    trimL (c :: s) = c :: s := by
  simp [trimL, List.dropWhile_cons, h]

theorem head_not_ws_of_trimL (c : Char) (s : Str) (h : trimL (c :: s) = c :: s) :
    isWS c = false := by
  by_contra hc
  have hc' : isWS c = true := by
    cases hws : isWS c with
    | false => exact absurd hws hc
    | true => rfl
  have : trimL (c :: s) = trimL s := by simp [trimL, List.dropWhile_cons, hc']
  have hlen : (trimL s).length ≤ s.length := length_trimL_le s
  rw [this] at h
  have : s.length + 1 ≤ s.length := by
    calc s.length + 1 = (c :: s).length := rfl
    _ = (trimL s).length := by rw [h]
    _ ≤ s.length := hlen
  omega

theorem trimR_append_of_ne_nil (a b : Str) (h : trimR b ≠ []) :
    trimR (a ++ b) = a ++ trimR b := by
  have hne : (b.reverse.dropWhile isWS).isEmpty = false := by
    cases hd : (b.reverse.dropWhile isWS).isEmpty
    · rfl
    · exfalso
      apply h
      have : b.reverse.dropWhile isWS = [] := List.isEmpty_iff.mp hd
      simp [trimR, this]
  rw [trimR, List.reverse_append, List.dropWhile_append, hne]
  simp [trimR]

theorem trimR_cons_of_trimR_ne_nil (c : Char) (b : Str) (h : trimR b ≠ []) :
    trimR (c :: b) = c :: trimR b := by
  have := trimR_append_of_ne_nil [c] b h
  simpa using this

theorem splitOnChar_ne_nil (sep : Char) (s : Str) : splitOnChar sep s ≠ [] := by
  cases s with
  | nil => simp [splitOnChar]
  | cons c rest =>
    rw [splitOnChar]
    split
    · simp
    · split <;> simp

theorem splitOnChar_no_sep (sep : Char) (s : Str) (h : ∀ c ∈ s, c ≠ sep) :
    splitOnChar sep s = [s] := by
  induction s with
  | nil => rfl
  | cons c rest ih =>
    have hc : (c == sep) = false := by
      have := h c (List.mem_cons_self c rest)
      simp [this]
    rw [splitOnChar, ih (fun x hx => h x (List.mem_cons_of_mem c hx))]
    simp [hc]

theorem splitOnChar_append_sep (sep : Char) (a b : Str) (h : ∀ c ∈ a, c ≠ sep) :
    splitOnChar sep (a ++ sep :: b) = a :: splitOnChar sep b := by
  induction a with
  | nil =>
    rw [List.nil_append, splitOnChar]
    cases hs : splitOnChar sep b with
    | nil => exact absurd hs (splitOnChar_ne_nil sep b)
    | cons x t => simp [← hs]
  | cons c a' ih =>
    have hc : (c == sep) = false := by
      have := h c (List.mem_cons_self c a')
      simp [this]
    rw [List.cons_append, splitOnChar, ih (fun x hx => h x (List.mem_cons_of_mem c hx))]
    simp [hc]

theorem intercalate_single (sep : Str) (x : Str) : List.intercalate sep [x] = x := by
  simp [List.intercalate]

theorem intercalate_cons₂ (sep : Str) (x y : Str) (rest : List Str) :
    List.intercalate sep (x :: y :: rest) = x ++ sep ++ List.intercalate sep (y :: rest) := by
  simp [List.intercalate, List.intersperse_cons_cons, List.append_assoc]

theorem cons_intercalate (sep : Str) (c : Char) (y : Str) (rest : List Str) :
    c :: List.intercalate sep (y :: rest) = List.intercalate sep ((c :: y) :: rest) := by
  cases rest with
  | nil => simp [intercalate_single]
  | cons z zs => simp [intercalate_cons₂]

theorem split_intercalate_comma (x : Str) (rest : List Str)
    (h : ∀ s ∈ x :: rest, ∀ c ∈ s, c ≠ ',') :
    splitOnChar ',' (List.intercalate (str ", ") (x :: rest)) =
      x :: rest.map (fun r => ' ' :: r) := by
  induction rest generalizing x with
  | nil =>
    rw [intercalate_single]
    exact splitOnChar_no_sep ',' x (h x (List.mem_cons_self x []))
  | cons y rest' ih =>
    have hx : ∀ c ∈ x, c ≠ ',' := h x (List.mem_cons_self x (y :: rest'))
    have hshape : List.intercalate (str ", ") (x :: y :: rest') =
        x ++ ',' :: List.intercalate (str ", ") ((' ' :: y) :: rest') := by
      rw [intercalate_cons₂, ← cons_intercalate]
      simp [str, List.append_assoc]
    rw [hshape, splitOnChar_append_sep ',' x _ hx]
    have hy : ∀ s ∈ (' ' :: y) :: rest', ∀ c ∈ s, c ≠ ',' := by
      intro s hs c hc
      rcases List.mem_cons.mp hs with h1 | h2
      · subst h1
        rcases List.mem_cons.mp hc with h3 | h4
        · subst h3; intro hcon; cases hcon
        · exact h y (List.mem_cons_of_mem x (List.mem_cons_self y rest')) c h4
      · exact h s (List.mem_cons_of_mem x (List.mem_cons_of_mem y h2)) c hc
    rw [ih (' ' :: y) hy]
    simp

theorem trimR_snoc (s : Str) (c : Char) (h : isWS c = false) :
    trimR (s ++ [c]) = s ++ [c] := by
  rw [trimR, List.reverse_append]
  simp [List.dropWhile_cons, h]

theorem jsTrim_cons_ws (c : Char) (s : Str) (h : isWS c = true) :
    jsTrim (c :: s) = jsTrim s := by
  simp [jsTrim, trimL, List.dropWhile_cons, h]

theorem intercalate_ne_nil (x : Str) (rest : List Str) (hx : x ≠ []) :
    List.intercalate (str ", ") (x :: rest) ≠ [] := by
  cases rest with
  | nil => rw [intercalate_single]; exact hx
  | cons y ys =>
    rw [intercalate_cons₂]
    simp only [List.append_assoc]
    intro hcon
    exact hx (List.append_eq_nil.mp hcon).1

theorem trimR_intercalate (x : Str) (rest : List Str)
    (h : ∀ s ∈ x :: rest, s ≠ [] ∧ jsTrim s = s) :
    trimR (List.intercalate (str ", ") (x :: rest)) =
      List.intercalate (str ", ") (x :: rest) := by
  induction rest generalizing x with
  | nil =>
    rw [intercalate_single]
    exact (jsTrim_eq_self_split x (h x (List.mem_cons_self x [])).2).2
  | cons y rest' ih =>
    have hself : ∀ s ∈ y :: rest', s ≠ [] ∧ jsTrim s = s := by
      intro s hs
      exact h s (List.mem_cons_of_mem x hs)
    have hI : trimR (List.intercalate (str ", ") (y :: rest')) =
        List.intercalate (str ", ") (y :: rest') := ih y hself
    have hIne : List.intercalate (str ", ") (y :: rest') ≠ [] :=
      intercalate_ne_nil y rest' (hself y (List.mem_cons_self y rest')).1
    have h2 : trimR ([' '] ++ List.intercalate (str ", ") (y :: rest')) =
        [' '] ++ List.intercalate (str ", ") (y :: rest') := by
      rw [trimR_append_of_ne_nil _ _ (by rw [hI]; exact hIne), hI]
    have h2ne : ([' '] : Str) ++ List.intercalate (str ", ") (y :: rest') ≠ [] := by
      simp
    have h3 : trimR ([','] ++ ([' '] ++ List.intercalate (str ", ") (y :: rest'))) =
        [','] ++ ([' '] ++ List.intercalate (str ", ") (y :: rest')) := by
      rw [trimR_append_of_ne_nil _ _ (by rw [h2]; exact h2ne), h2]
    have h3ne : ([','] : Str) ++ ([' '] ++ List.intercalate (str ", ") (y :: rest')) ≠ [] := by
      simp
    rw [intercalate_cons₂]
    have hshape : x ++ str ", " ++ List.intercalate (str ", ") (y :: rest') =
        x ++ ([','] ++ ([' '] ++ List.intercalate (str ", ") (y :: rest'))) := by
      simp [str, List.append_assoc]
    rw [hshape, trimR_append_of_ne_nil _ _ (by rw [h3]; exact h3ne), h3]

theorem trimL_intercalate (x : Str) (rest : List Str)
    (h : ∀ s ∈ x :: rest, s ≠ [] ∧ jsTrim s = s) :
    trimL (List.intercalate (str ", ") (x :: rest)) =
      List.intercalate (str ", ") (x :: rest) := by
  obtain ⟨hx, hxt⟩ := h x (List.mem_cons_self x rest)
  obtain ⟨c, x', rfl⟩ : ∃ c x', x = c :: x' := by
    cases x with
    | nil => exact absurd rfl hx
    | cons c x' => exact ⟨c, x', rfl⟩
  have hc : isWS c = false :=
    head_not_ws_of_trimL c x' (jsTrim_eq_self_split _ hxt).1
  cases rest with
  | nil =>
    rw [intercalate_single]
    exact trimL_cons_of_not_ws c x' hc
  | cons y ys =>
    rw [intercalate_cons₂, List.cons_append, List.cons_append]
    exact trimL_cons_of_not_ws c _ hc

theorem jsTrim_format (anns : List Str) :
    jsTrim (formatAnnotations anns) = formatAnnotations anns := by
  have hshape : formatAnnotations anns =
      '%' :: ('%' :: List.intercalate (str ", ") anns ++ ['%']) ++ ['%'] := by
    simp [formatAnnotations, str]
  have hpct : isWS '%' = false := rfl
  rw [jsTrim, hshape]
  rw [show ('%' :: ('%' :: List.intercalate (str ", ") anns ++ ['%']) ++ ['%'] : Str) =
      '%' :: (('%' :: List.intercalate (str ", ") anns ++ ['%']) ++ ['%']) from by simp]
  rw [trimL_cons_of_not_ws _ _ hpct]
  rw [show ('%' :: (('%' :: List.intercalate (str ", ") anns ++ ['%']) ++ ['%']) : Str) =
      ('%' :: ('%' :: List.intercalate (str ", ") anns ++ ['%'])) ++ ['%'] from by simp]
  rw [trimR_snoc _ _ hpct]

theorem slice_format (anns : List Str) :
    jsSlice2Neg2 (formatAnnotations anns) = List.intercalate (str ", ") anns := by
  have hshape : formatAnnotations anns =
      ['%', '%'] ++ (List.intercalate (str ", ") anns ++ ['%', '%']) := by
    simp [formatAnnotations, str]
  rw [jsSlice2Neg2, hshape]
  have hdrop : (['%', '%'] ++ (List.intercalate (str ", ") anns ++ ['%', '%'])).drop 2 =
      List.intercalate (str ", ") anns ++ ['%', '%'] := rfl
  have hlen : (['%', '%'] ++ (List.intercalate (str ", ") anns ++ ['%', '%'])).length - 4 =
      (List.intercalate (str ", ") anns).length := by
    simp
  rw [hdrop, hlen]
  exact List.take_left _ _

/-- Claim C1 (corrected): the round-trip law holds for lists of non-empty,
trimmed entries that are additionally comma-free:
`parseAnnotations (formatAnnotations xs) = xs`. -/
theorem C1_round_trip (xs : List Str)
    (h : ∀ s ∈ xs, s ≠ [] ∧ jsTrim s = s ∧ ∀ c ∈ s, c ≠ ',') :
    parseAnnotations (formatAnnotations xs) = xs := by
  cases xs with
  | nil => decide
  | cons x rest =>
    have hok : ∀ s ∈ x :: rest, s ≠ [] ∧ jsTrim s = s := by
      intro s hs
      exact ⟨(h s hs).1, (h s hs).2.1⟩
    have hcomma : ∀ s ∈ x :: rest, ∀ c ∈ s, c ≠ ',' := by
      intro s hs
      exact (h s hs).2.2
    rw [parseAnnotations]
    rw [jsTrim_format, slice_format]
    have hinner : jsTrim (List.intercalate (str ", ") (x :: rest)) =
        List.intercalate (str ", ") (x :: rest) := by
      rw [jsTrim, trimL_intercalate x rest hok, trimR_intercalate x rest hok]
    rw [hinner]
    have hne : List.intercalate (str ", ") (x :: rest) ≠ [] :=
      intercalate_ne_nil x rest (hok x (List.mem_cons_self x rest)).1
    rw [if_neg (by simpa using hne)]
    rw [split_intercalate_comma x rest hcomma]
    have hmap : ((x :: rest.map (fun r => ' ' :: r)).map jsTrim) = x :: rest := by
      rw [List.map_cons, (hok x (List.mem_cons_self x rest)).2, List.map_map]
      congr 1
      have : ∀ r ∈ rest, (jsTrim ∘ fun r => ' ' :: r) r = id r := by
        intro r hr
        have := jsTrim_cons_ws ' ' r rfl
        simp only [Function.comp_apply, this, id]
        exact (hok r (List.mem_cons_of_mem x hr)).2
      rw [List.map_congr_left this, List.map_id]
    rw [hmap]
    rw [List.filter_eq_self.mpr]
    intro a ha
    have : a ≠ [] := (hok a ha).1
    simpa using this

/-- Witness for C1: the amended round-trip law at a concrete comma-free input. -/
theorem C1_round_trip_witness :
    parseAnnotations (formatAnnotations [str "alpha", str "beta"]) =
      [str "alpha", str "beta"] :=
  C1_round_trip [str "alpha", str "beta"] (by decide)

/-- Counterexample for C1 as stated: `["a,b"]` is a list of one non-empty,
trimmed string, yet the round trip returns `["a", "b"]`. -/
theorem C1_counterexample :
    (str "a,b" ≠ [] ∧ jsTrim (str "a,b") = str "a,b") ∧
      parseAnnotations (formatAnnotations [str "a,b"]) ≠ [str "a,b"] := by
  decide

theorem getLine_out (doc : Doc) (i : Nat) (h : doc.length ≤ i) : getLine doc i = [] := by
  rw [getLine, List.getD_eq_getElem?_getD, List.getElem?_eq_none h]
  rfl

theorem lt_of_not_stop (doc : Doc) (i : Nat)
    (h : (isEmptyLine (getLine doc i) || isAnnotationLine (getLine doc i)) = false) :
    i < doc.length := by
  by_contra hc
  rw [getLine_out doc i (Nat.le_of_not_lt hc)] at h
  simp [isEmptyLine, jsTrim, trimL, trimR] at h

theorem expandUp_le (doc : Doc) (n : Nat) : expandUp doc n ≤ n := by
  induction n with
  | zero => exact Nat.le_refl 0
  | succ m ih =>
    rw [expandUp]
    split
    · exact Nat.le_refl _
    · exact Nat.le_trans ih (Nat.le_succ m)

theorem expandUp_good (doc : Doc) (n : Nat) :
    ∀ j, expandUp doc n ≤ j → j < n →
      (isEmptyLine (getLine doc j) || isAnnotationLine (getLine doc j)) = false := by
  induction n with
  | zero => intro j _ hj; exact absurd hj (Nat.not_lt_zero j)
  | succ m ih =>
    intro j h1 h2
    rw [expandUp] at h1
    by_cases hm : (isEmptyLine (getLine doc m) || isAnnotationLine (getLine doc m)) = true
    · rw [if_pos hm] at h1
      omega
    · rw [if_neg hm] at h1
      rcases Nat.lt_or_ge j m with hj | hj
      · exact ih j h1 hj
      · have : j = m := Nat.le_antisymm (Nat.le_of_lt_succ h2) hj
        subst this
        exact Bool.not_eq_true _ ▸ (by revert hm; cases (isEmptyLine (getLine doc j) || isAnnotationLine (getLine doc j)) <;> simp)

theorem expandUp_max (doc : Doc) (n : Nat) :
    expandUp doc n = 0 ∨
      (isEmptyLine (getLine doc (expandUp doc n - 1)) ||
        isAnnotationLine (getLine doc (expandUp doc n - 1))) = true := by
  induction n with
  | zero => exact Or.inl rfl
  | succ m ih =>
    rw [expandUp]
    split
    · rename_i hm
      right
      simpa using hm
    · exact ih

theorem expandDownFuel_ge (doc : Doc) (fuel : Nat) :
    ∀ n, n ≤ expandDownFuel doc n fuel := by
  induction fuel with
  | zero => intro n; exact Nat.le_refl n
  | succ f ih =>
    intro n
    rw [expandDownFuel]
    split
    · exact Nat.le_refl n
    · exact Nat.le_trans (Nat.le_succ n) (ih (n + 1))

theorem expandDownFuel_le (doc : Doc) (fuel : Nat) :
    ∀ n, expandDownFuel doc n fuel ≤ n + fuel := by
  induction fuel with
  | zero => intro n; exact Nat.le_refl n
  | succ f ih =>
    intro n
    rw [expandDownFuel]
    split
    · omega
    · have := ih (n + 1)
      omega

theorem expandDownFuel_good (doc : Doc) (fuel : Nat) :
    ∀ n j, n < j → j ≤ expandDownFuel doc n fuel →
      (isEmptyLine (getLine doc j) || isAnnotationLine (getLine doc j)) = false := by
  induction fuel with
  | zero =>
    intro n j h1 h2
    simp only [expandDownFuel] at h2
    omega
  | succ f ih =>
    intro n j h1 h2
    rw [expandDownFuel] at h2
    by_cases hn : (isEmptyLine (getLine doc (n + 1)) || isAnnotationLine (getLine doc (n + 1))) = true
    · rw [if_pos hn] at h2
      omega
    · rw [if_neg hn] at h2
      rcases Nat.lt_or_ge (n + 1) j with hj | hj
      · exact ih (n + 1) j hj h2
      · have : j = n + 1 := Nat.le_antisymm (by omega) (by omega)
        subst this
        revert hn
        cases (isEmptyLine (getLine doc (n + 1)) || isAnnotationLine (getLine doc (n + 1))) <;> simp

theorem expandDownFuel_max (doc : Doc) (fuel : Nat) :
    ∀ n, expandDownFuel doc n fuel = n + fuel ∨
      (isEmptyLine (getLine doc (expandDownFuel doc n fuel + 1)) ||
        isAnnotationLine (getLine doc (expandDownFuel doc n fuel + 1))) = true := by
  induction fuel with
  | zero => intro n; exact Or.inl rfl
  | succ f ih =>
    intro n
    rw [expandDownFuel]
    split
    · rename_i hn
      right
      simpa using hn
    · rcases ih (n + 1) with h | h
      · left; omega
      · right; exact h

/-- Claim C3 (confirmed): `findParagraphBounds` returns `null` exactly on
blank or annotation-marker lines, `{i, i}` on list items, and otherwise the
maximal contiguous run of non-blank, non-marker lines containing `i`,
stopping at the document edges; on the three-line scenario document at
index 1 it returns `{0, 2}`. -/
theorem C3_paragraph_bounds :
    (∀ (doc : Doc) (i : Nat),
      (findParagraphBounds doc i = none ↔
        (isEmptyLine (getLine doc i) || isAnnotationLine (getLine doc i)) = true)
      ∧ ((isEmptyLine (getLine doc i) || isAnnotationLine (getLine doc i)) = false →
          isListItem (getLine doc i) = true →
          findParagraphBounds doc i = some ⟨i, i⟩)
      ∧ ((isEmptyLine (getLine doc i) || isAnnotationLine (getLine doc i)) = false →
          isListItem (getLine doc i) = false →
          ∃ s e, findParagraphBounds doc i = some ⟨s, e⟩ ∧ s ≤ i ∧ i ≤ e ∧
            (∀ j, s ≤ j → j ≤ e →
              (isEmptyLine (getLine doc j) || isAnnotationLine (getLine doc j)) = false) ∧
            (s = 0 ∨ (isEmptyLine (getLine doc (s - 1)) ||
              isAnnotationLine (getLine doc (s - 1))) = true) ∧
            (e = doc.length - 1 ∨ (isEmptyLine (getLine doc (e + 1)) ||
              isAnnotationLine (getLine doc (e + 1))) = true)))
    ∧ findParagraphBounds demoDoc 1 = some ⟨0, 2⟩ := by
  constructor
  · intro doc i
    refine ⟨?_, ?_, ?_⟩
    · constructor
      · intro h
        by_contra hc
        have hc' : (isEmptyLine (getLine doc i) || isAnnotationLine (getLine doc i)) = false := by
          revert hc
          cases (isEmptyLine (getLine doc i) || isAnnotationLine (getLine doc i)) <;> simp
        rw [findParagraphBounds, if_neg (by simp [hc'])] at h
        split at h <;> cases h
      · intro h
        rw [findParagraphBounds, if_pos (by simp [h])]
    · intro h1 h2
      rw [findParagraphBounds, if_neg (by simp [h1]), if_pos h2]
    · intro h1 h2
      refine ⟨expandUp doc i, expandDown doc i, ?_, expandUp_le doc i,
        expandDownFuel_ge doc _ i, ?_, expandUp_max doc i, ?_⟩
      · rw [findParagraphBounds, if_neg (by simp [h1]), if_neg (by simp [h2])]
      · intro j hj1 hj2
        rcases Nat.lt_or_ge j i with hj | hj
        · exact expandUp_good doc i j hj1 hj
        · rcases Nat.eq_or_lt_of_le hj with rfl | hj'
          · exact h1
          · exact expandDownFuel_good doc _ i j hj' hj2
      · have hi : i < doc.length := lt_of_not_stop doc i h1
        rcases expandDownFuel_max doc (doc.length - 1 - i) i with h | h
        · left
          rw [expandDown, h]
          omega
        · right
          exact h
  · decide

/-- Witness for C3: the list-item clause applied to a concrete one-line
document whose line is a list item. -/
theorem C3_paragraph_bounds_witness :
    findParagraphBounds [str "- a"] 0 = some ⟨0, 0⟩ :=
  (C3_paragraph_bounds.1 [str "- a"] 0).2.1 (by decide) (by decide)

/-- Claim C2 (corrected): whenever `findParagraphBounds` returns bounds,
`startLine ≤ endLine`, every line in the range is non-blank and not an
annotation-marker line, and `startLine = endLine` whenever the *queried*
line is a list item. (The claim's stronger reading — no line of the range
is a list item unless the range is a single line — is false, see the
counterexample.) -/
theorem C2_bounds_invariant (doc : Doc) (i s e : Nat)
    (h : findParagraphBounds doc i = some ⟨s, e⟩) :
    s ≤ e ∧
    (∀ j, s ≤ j → j ≤ e →
      isEmptyLine (getLine doc j) = false ∧ isAnnotationLine (getLine doc j) = false) ∧
    (isListItem (getLine doc i) = true → s = e) := by
  by_cases h1 : (isEmptyLine (getLine doc i) || isAnnotationLine (getLine doc i)) = true
  · rw [findParagraphBounds, if_pos (by simp [h1])] at h
    cases h
  · have h1' : (isEmptyLine (getLine doc i) || isAnnotationLine (getLine doc i)) = false := by
      revert h1
      cases (isEmptyLine (getLine doc i) || isAnnotationLine (getLine doc i)) <;> simp
    rw [Bool.or_eq_false_iff] at h1'
    by_cases h2 : isListItem (getLine doc i) = true
    · rw [findParagraphBounds, if_neg (by simp [h1'.1, h1'.2]), if_pos h2] at h
      simp only [Option.some.injEq, ParagraphBounds.mk.injEq] at h
      obtain ⟨h3, h4⟩ := h
      refine ⟨by omega, ?_, fun _ => by omega⟩
      intro j hj1 hj2
      have hji : j = i := by omega
      subst hji
      exact h1'
    · have h2' : isListItem (getLine doc i) = false := by
        revert h2; cases isListItem (getLine doc i) <;> simp
      rw [findParagraphBounds, if_neg (by simp [h1'.1, h1'.2]), if_neg (by simp [h2'])] at h
      simp only [Option.some.injEq, ParagraphBounds.mk.injEq] at h
      obtain ⟨h3, h4⟩ := h
      subst h3; subst h4
      refine ⟨Nat.le_trans (expandUp_le doc i) (expandDownFuel_ge doc _ i), ?_, ?_⟩
      · intro j hj1 hj2
        have hgood : (isEmptyLine (getLine doc j) || isAnnotationLine (getLine doc j)) = false := by
          rcases Nat.lt_or_ge j i with hj | hj
          · exact expandUp_good doc i j hj1 hj
          · rcases Nat.eq_or_lt_of_le hj with rfl | hj'
            · rw [Bool.or_eq_false_iff]; exact h1'
            · exact expandDownFuel_good doc _ i j hj' hj2
        rw [Bool.or_eq_false_iff] at hgood
        exact hgood
      · intro hcon
        rw [hcon] at h2'
        cases h2'

/-- Witness for C2: the amended invariant at the three-line scenario document. -/
theorem C2_bounds_invariant_witness :
    (0 : Nat) ≤ 2 ∧
    (∀ j, 0 ≤ j → j ≤ 2 →
      isEmptyLine (getLine demoDoc j) = false ∧ isAnnotationLine (getLine demoDoc j) = false) ∧
    (isListItem (getLine demoDoc 1) = true → 0 = 2) :=
  C2_bounds_invariant demoDoc 1 0 2 (by decide)

/-- Counterexample for C2 as stated: in `["- a", "x", "- b"]` the bounds at
index 1 are `{0, 2}` although line 0 of the range is a list item, so a list
item does appear inside a multi-line paragraph. -/
theorem C2_counterexample :
    findParagraphBounds [str "- a", str "x", str "- b"] 1 = some ⟨0, 2⟩ ∧
    isListItem (getLine [str "- a", str "x", str "- b"] 0) = true ∧
    (0 : Nat) ≠ 2 := by
  decide

/-- Claim C9 (confirmed): `isAnnotationLine` is true exactly when the
trimmed line both starts and ends with `%%`, the empty-payload line `%%%%`
(trimmed length exactly 4) included. -/
theorem C9_annotation_marker :
    (∀ l : Str,
      isAnnotationLine l = true ↔
        ((∃ t, jsTrim l = '%' :: '%' :: t) ∧ (∃ t, jsTrim l = t ++ ['%', '%'])))
    ∧ isAnnotationLine (str "%%%%") = true
    ∧ (jsTrim (str "%%%%")).length = 4
    ∧ isAnnotationLine (str "%% a %% b %%") = true := by
  refine ⟨?_, by decide, by decide, by decide⟩
  intro l
  rw [isAnnotationLine]
  simp only [Bool.and_eq_true, List.isPrefixOf_iff_prefix, List.isSuffixOf_iff_suffix]
  constructor
  · rintro ⟨h1, h2⟩
    obtain ⟨t, ht⟩ := h1
    obtain ⟨u, hu⟩ := h2
    exact ⟨⟨t, ht.symm⟩, ⟨u, hu.symm⟩⟩
  · rintro ⟨⟨t, ht⟩, ⟨u, hu⟩⟩
    exact ⟨⟨t, ht.symm⟩, ⟨u, hu.symm⟩⟩

/-- Witness for C9: the characterization applied at a concrete marker line. -/
theorem C9_annotation_marker_witness :
    isAnnotationLine (str "%%x%%") = true :=
  (C9_annotation_marker.1 (str "%%x%%")).mpr ⟨⟨str "x%%", by decide⟩, ⟨str "%%x", by decide⟩⟩

theorem applyRange_full_lines (doc : Doc) (r : Str) (s t : Nat) :
    applyRange doc ⟨r, ⟨s, 0⟩, ⟨t, (getLine doc t).length⟩⟩ =
      doc.take s ++ splitLines r ++ doc.drop (t + 1) := by
  simp [applyRange, List.drop_length]

/-- Claim C6 (corrected): each document mutator issues exactly one
range-replace call; the rewrite mutator's outer line is
`annotationLine ?? endLine` (not `max(endLine, annotationLine ?? endLine)`
as claimed — the two agree whenever `annotationLine ≥ endLine`, which holds
at every call site since the annotation line is `endLine + 1`); the inspire
mutator replaces from the start of `startLine` to the end of `endLine`'s
text with `newParagraphText + "\n" + join(bulletLines, "\n")`; and a call
covering whole lines rewrites nothing outside `startLine..outer`. -/
theorem C6_single_replace :
    (∀ (doc : Doc) (s e : Nat) (annOpt : Option Nat) (txt : Str),
      replaceParagraphAndRemoveAnnotations doc s e annOpt txt =
        ⟨txt, ⟨s, 0⟩, ⟨annOpt.getD e, (getLine doc (annOpt.getD e)).length⟩⟩)
    ∧ (∀ (doc : Doc) (s e : Nat) (npt : Str) (bl : List Str),
      replaceParagraphWithInspiration doc s e npt bl =
        ⟨npt ++ '\n' :: List.intercalate (str "\n") bl, ⟨s, 0⟩, ⟨e, (getLine doc e).length⟩⟩)
    ∧ (∀ (doc : Doc) (s e k : Nat) (txt : Str), e ≤ k →
      (replaceParagraphAndRemoveAnnotations doc s e (some k) txt).rTo.line = max e k)
    ∧ (∀ (doc : Doc) (r : Str) (s t : Nat),
      applyRange doc ⟨r, ⟨s, 0⟩, ⟨t, (getLine doc t).length⟩⟩ =
        doc.take s ++ splitLines r ++ doc.drop (t + 1)) := by
  refine ⟨fun doc s e annOpt txt => rfl, fun doc s e npt bl => rfl, ?_, applyRange_full_lines⟩
  intro doc s e k txt hk
  simp [replaceParagraphAndRemoveAnnotations, Nat.max_eq_right hk]

/-- Witness for C6: the `max` form of the outer bound at a concrete call
with the annotation line below the paragraph end. -/
theorem C6_single_replace_witness :
    (replaceParagraphAndRemoveAnnotations [] 0 1 (some 2) []).rTo.line = max 1 2 :=
  C6_single_replace.2.2.1 [] 0 1 2 [] (by decide)

/-- Counterexample for C6 as stated: with `endLine = 1` and
`annotationLine = 0` the call targets line 0, not
`max(endLine, annotationLine ?? endLine) = 1`. -/
theorem C6_counterexample :
    (replaceParagraphAndRemoveAnnotations [str "aa", str "bb"] 0 1 (some 0) (str "X")).rTo =
      ⟨0, 2⟩ ∧
    (replaceParagraphAndRemoveAnnotations [str "aa", str "bb"] 0 1 (some 0) (str "X")).rTo.line ≠
      max 1 ((Option.some 0).getD 1) := by
  decide

theorem scanMatchesFuel_nil (f p : Nat) : scanMatchesFuel f [] p = [] := by
  cases f <;> rfl

theorem scanMatchesFuel_irrel : ∀ (f₁ f₂ : Nat) (s : Str) (p : Nat),
    s.length ≤ f₁ → s.length ≤ f₂ → scanMatchesFuel f₁ s p = scanMatchesFuel f₂ s p := by
  intro f₁
  induction f₁ with
  | zero =>
    intro f₂ s p h1 _
    have hs : s = [] := List.length_eq_zero.mp (Nat.le_zero.mp h1)
    subst hs
    rw [scanMatchesFuel_nil, scanMatchesFuel_nil]
  | succ g ih =>
    intro f₂ s p h1 h2
    cases s with
    | nil => rw [scanMatchesFuel_nil, scanMatchesFuel_nil]
    | cons c rest =>
      cases f₂ with
      | zero => simp at h2
      | succ g' =>
        rw [scanMatchesFuel, scanMatchesFuel]
        have hrest : rest.length ≤ g := by simpa using h1
        have hrest' : rest.length ≤ g' := by simpa using h2
        split
        · congr 1
          exact ih g' _ _
            (Nat.le_trans (by rw [List.length_drop]; omega) hrest)
            (Nat.le_trans (by rw [List.length_drop]; omega) hrest')
        · exact ih g' rest (p + 1) hrest hrest'

theorem scan_no_brace : ∀ (f : Nat) (s : Str) (p : Nat), '\x7b' ∉ s →
    scanMatchesFuel f s p = [] := by
  intro f
  induction f with
  | zero => intro s p _; rfl
  | succ g ih =>
    intro s p h
    cases s with
    | nil => rfl
    | cons c rest =>
      have hc : c ≠ '\x7b' := by
        intro hcon
        exact h (hcon ▸ List.mem_cons_self c rest)
      rw [scanMatchesFuel, if_neg (fun hcon => hc hcon.1)]
      exact ih rest (p + 1) (fun hm => h (List.mem_cons_of_mem c hm))

theorem scan_append_no_brace : ∀ (pre : Str) (f : Nat) (s : Str) (p : Nat),
    '\x7b' ∉ pre → (pre ++ s).length ≤ f →
    scanMatchesFuel f (pre ++ s) p = scanMatchesFuel (f - pre.length) s (p + pre.length) := by
  intro pre
  induction pre with
  | nil => intro f s p _ _; simp
  | cons c pre' ih =>
    intro f s p h hf
    cases f with
    | zero => simp at hf
    | succ g =>
      have hc : c ≠ '\x7b' := by
        intro hcon
        exact h (hcon ▸ List.mem_cons_self c pre')
      rw [List.cons_append, scanMatchesFuel, if_neg (fun hcon => hc hcon.1)]
      rw [ih g s (p + 1) (fun hm => h (List.mem_cons_of_mem c hm)) (by simpa using hf)]
      congr 1
      · simp
      · simp; omega

theorem scan_match_head (f : Nat) (payload post : Str) (p : Nat)
    (hpl : payload ≠ []) (hbr : ∀ x ∈ payload, x ≠ '\x7d')
    (hf : ('\x7b' :: (payload ++ '\x7d' :: post)).length ≤ f) :
    scanMatchesFuel f ('\x7b' :: (payload ++ '\x7d' :: post)) p =
      (p, payload) :: scanMatchesFuel (f - (payload.length + 2)) post (p + payload.length + 2) := by
  cases f with
  | zero => simp at hf
  | succ g =>
    have htake : (payload ++ '\x7d' :: post).takeWhile (fun x => x != '\x7d') = payload := by
      rw [List.takeWhile_append]
      rw [List.takeWhile_eq_self_iff.mpr (by intro x hx; simpa using hbr x hx)]
      rw [if_pos rfl, List.takeWhile_cons]
      simp
    have hlt : payload.length < (payload ++ '\x7d' :: post).length := by
      simp
    rw [scanMatchesFuel, if_pos ⟨rfl, by rw [htake]; exact hpl, by rw [htake]; exact hlt⟩]
    rw [htake]
    have hdrop : (payload ++ '\x7d' :: post).drop (payload.length + 1) = post := by
      have hsh : payload ++ '\x7d' :: post = (payload ++ ['\x7d']) ++ post := by simp
      have hlen : payload.length + 1 = (payload ++ ['\x7d']).length := by simp
      rw [hsh, hlen, List.drop_left]
    rw [hdrop]
    congr 1
    apply scanMatchesFuel_irrel
    · simp at hf; omega
    · simp at hf; omega

theorem scanMatches_single (pre payload post : Str)
    (h1 : '\x7b' ∉ pre) (h2 : '\x7b' ∉ post)
    (h4 : ∀ x ∈ payload, x ≠ '\x7d') (h5 : payload ≠ []) :
    scanMatches (pre ++ '\x7b' :: (payload ++ '\x7d' :: post)) = [(pre.length, payload)] := by
  rw [scanMatches, scan_append_no_brace pre _ _ 0 h1 (Nat.le_refl _)]
  have hflen : (pre ++ '\x7b' :: (payload ++ '\x7d' :: post)).length - pre.length =
      ('\x7b' :: (payload ++ '\x7d' :: post)).length := by
    simp
  rw [hflen, scan_match_head _ payload post _ h5 h4 (Nat.le_refl _)]
  rw [scan_no_brace _ post _ h2]
  simp

theorem dropWhile_head_not (p : Char → Bool) : ∀ (l : Str) (h : Char) (t : Str),
    l.dropWhile p = h :: t → p h = false := by
  intro l
  induction l with
  | nil => intro h t hc; cases hc
  | cons a l' ih =>
    intro h t hc
    rw [List.dropWhile_cons] at hc
    by_cases hp : p a = true
    · rw [if_pos hp] at hc
      exact ih h t hc
    · rw [if_neg hp] at hc
      injection hc with h1 _
      subst h1
      revert hp
      cases p a <;> simp

theorem scan_sound : ∀ (f : Nat) (s : Str) (p q : Nat) (payload : Str) (ms : List (Nat × Str)),
    scanMatchesFuel f s p = (q, payload) :: ms →
    ∃ u v, s = u ++ '\x7b' :: (payload ++ '\x7d' :: v) ∧ payload ≠ [] ∧ '\x7d' ∉ payload := by
  intro f
  induction f with
  | zero => intro s p q payload ms hc; cases hc
  | succ g ih =>
    intro s p q payload ms hc
    cases s with
    | nil => cases hc
    | cons c rest =>
      rw [scanMatchesFuel] at hc
      by_cases hcond : c = '\x7b' ∧ rest.takeWhile (fun x => x != '\x7d') ≠ [] ∧
          (rest.takeWhile (fun x => x != '\x7d')).length < rest.length
      · rw [if_pos hcond] at hc
        obtain ⟨hc1, hc2, hc3⟩ := hcond
        injection hc with h1 _
        have hpl : rest.takeWhile (fun x => x != '\x7d') = payload := by
          have := congrArg Prod.snd h1
          simpa using this
        rcases hdw : rest.dropWhile (fun x => x != '\x7d') with _ | ⟨h, t⟩
        · exfalso
          have hsplit := List.takeWhile_append_dropWhile (fun x => x != '\x7d') rest
          rw [hdw, List.append_nil] at hsplit
          rw [hsplit] at hc3
          omega
        · have hh : (h != '\x7d') = false := dropWhile_head_not _ rest h t hdw
          have hh' : h = '\x7d' := by simpa using hh
          subst hh'
          subst hc1
          refine ⟨[], t, ?_, by rw [← hpl]; exact hc2, ?_⟩
          · have hsplit := List.takeWhile_append_dropWhile (fun x => x != '\x7d') rest
            rw [hdw, hpl] at hsplit
            rw [List.nil_append, ← hsplit]
          · rw [← hpl]
            intro hx
            have := List.mem_takeWhile_imp hx
            simp at this
      · rw [if_neg hcond] at hc
        obtain ⟨u, v, hdec, hne2, hnotin⟩ := ih rest (p + 1) q payload ms hc
        refine ⟨c :: u, v, ?_, hne2, hnotin⟩
        rw [List.cons_append, hdec]

theorem scan_chunks : ∀ (chunks : List (Str × Str)) (s : Str) (f p : Nat),
    (∀ pc ∈ chunks, pc.1 ≠ [] ∧ '\x7d' ∉ pc.1 ∧ '\x7b' ∉ pc.2) →
    (chunksText chunks ++ s).length ≤ f →
    ∃ ms, scanMatchesFuel f (chunksText chunks ++ s) p =
      ms ++ scanMatchesFuel (f - (chunksText chunks).length) s (p + (chunksText chunks).length) ∧
      ms.map Prod.snd = chunks.map Prod.fst := by
  intro chunks
  induction chunks with
  | nil =>
    intro s f p _ _
    refine ⟨[], ?_, rfl⟩
    simp [chunksText]
  | cons c rest ih =>
    intro s f p hch hf
    obtain ⟨hne, hpay, hfill⟩ := hch c (List.mem_cons_self c rest)
    have hsh : chunksText (c :: rest) ++ s =
        '\x7b' :: (c.1 ++ '\x7d' :: (c.2 ++ (chunksText rest ++ s))) := by
      simp [chunksText]
    have hlen : (chunksText (c :: rest)).length =
        c.1.length + 2 + c.2.length + (chunksText rest).length := by
      simp [chunksText]
      omega
    have hf' : ('\x7b' :: (c.1 ++ '\x7d' :: (c.2 ++ (chunksText rest ++ s)))).length ≤ f := by
      rw [← hsh]
      exact hf
    have e1 : scanMatchesFuel f (chunksText (c :: rest) ++ s) p =
        (p, c.1) :: scanMatchesFuel (f - (c.1.length + 2))
          (c.2 ++ (chunksText rest ++ s)) (p + c.1.length + 2) := by
      rw [hsh]
      exact scan_match_head f c.1 (c.2 ++ (chunksText rest ++ s)) p hne
        (fun x hx heq => hpay (heq ▸ hx)) hf'
    have e2 : scanMatchesFuel (f - (c.1.length + 2)) (c.2 ++ (chunksText rest ++ s))
          (p + c.1.length + 2) =
        scanMatchesFuel (f - (c.1.length + 2) - c.2.length) (chunksText rest ++ s)
          (p + c.1.length + 2 + c.2.length) :=
      scan_append_no_brace c.2 (f - (c.1.length + 2)) (chunksText rest ++ s)
        (p + c.1.length + 2) hfill (by simp at hf' ⊢; omega)
    obtain ⟨ms, hms, hmap⟩ := ih s (f - (c.1.length + 2) - c.2.length)
      (p + c.1.length + 2 + c.2.length)
      (fun pc hpc => hch pc (List.mem_cons_of_mem c hpc))
      (by simp at hf' ⊢; omega)
    refine ⟨(p, c.1) :: ms, ?_, by simp [hmap]⟩
    rw [e1, e2, hms]
    rw [show f - (c.1.length + 2) - c.2.length - (chunksText rest).length =
        f - (chunksText (c :: rest)).length from by rw [hlen]; omega]
    rw [show p + c.1.length + 2 + c.2.length + (chunksText rest).length =
        p + (chunksText (c :: rest)).length from by rw [hlen]; omega]
    rfl

theorem scanMatches_decomp (fill0 : Str) (chunks : List (Str × Str)) (payload post : Str)
    (h0 : '\x7b' ∉ fill0)
    (hch : ∀ pc ∈ chunks, pc.1 ≠ [] ∧ '\x7d' ∉ pc.1 ∧ '\x7b' ∉ pc.2)
    (hpost : '\x7b' ∉ post) (hpay : '\x7d' ∉ payload) (hne : payload ≠ []) :
    ∃ ms, scanMatches ((fill0 ++ chunksText chunks) ++ '\x7b' :: (payload ++ '\x7d' :: post)) =
      ms ++ [((fill0 ++ chunksText chunks).length, payload)] ∧
      ms.map Prod.snd = chunks.map Prod.fst := by
  have e0 : (fill0 ++ chunksText chunks) ++ '\x7b' :: (payload ++ '\x7d' :: post) =
      fill0 ++ (chunksText chunks ++ '\x7b' :: (payload ++ '\x7d' :: post)) :=
    List.append_assoc fill0 (chunksText chunks) _
  have e1 : scanMatchesFuel ((fill0 ++ (chunksText chunks ++ '\x7b' :: (payload ++ '\x7d' :: post))).length)
        (fill0 ++ (chunksText chunks ++ '\x7b' :: (payload ++ '\x7d' :: post))) 0 =
      scanMatchesFuel
        ((fill0 ++ (chunksText chunks ++ '\x7b' :: (payload ++ '\x7d' :: post))).length - fill0.length)
        (chunksText chunks ++ '\x7b' :: (payload ++ '\x7d' :: post)) (0 + fill0.length) :=
    scan_append_no_brace fill0
      ((fill0 ++ (chunksText chunks ++ '\x7b' :: (payload ++ '\x7d' :: post))).length)
      (chunksText chunks ++ '\x7b' :: (payload ++ '\x7d' :: post)) 0 h0 (Nat.le_refl _)
  obtain ⟨ms, hms, hmap⟩ := scan_chunks chunks ('\x7b' :: (payload ++ '\x7d' :: post))
    ((fill0 ++ (chunksText chunks ++ '\x7b' :: (payload ++ '\x7d' :: post))).length - fill0.length)
    (0 + fill0.length) hch
    (by simp only [List.length_append, List.length_cons]; omega)
  refine ⟨ms, ?_, hmap⟩
  rw [e0, scanMatches, e1, hms]
  rw [scan_match_head _ payload post _ hne (fun x hx heq => hpay (heq ▸ hx))
    (by simp only [List.length_append, List.length_cons]; omega)]
  rw [scan_no_brace _ post _ hpost]
  have hidx : 0 + fill0.length + (chunksText chunks).length =
      (fill0 ++ chunksText chunks).length := by
    simp
  rw [hidx]

/-- Claim C4 (confirmed): `extractInstruction` scans for all non-nested
brace spans and selects the last: it returns `null` exactly when the text
has no well-formed span (unclosed or empty braces included), and on a text
that is any number of complete spans with brace-free fillers followed by a
last span it matches every span in order, selects the last, and removes
exactly it — the right-trimmed text before the span (earlier spans
verbatim) glued to the text after it, right-trimmed — returning `null` when
that last payload trims to empty; the scenario `"1. First item {expand}"`
gives `{"1. First item", "expand"}`. -/
theorem C4_extract_instruction :
    (∀ t : Str,
      (¬ ∃ u w v : Str, t = u ++ '\x7b' :: (w ++ '\x7d' :: v) ∧ w ≠ [] ∧ '\x7d' ∉ w) →
      extractInstruction t = none)
    ∧ (∀ (t : Str) (r : Extracted), extractInstruction t = some r →
        ∃ u w v : Str, t = u ++ '\x7b' :: (w ++ '\x7d' :: v) ∧ w ≠ [] ∧ '\x7d' ∉ w)
    ∧ (∀ (fill0 : Str) (chunks : List (Str × Str)) (payload post : Str),
        '\x7b' ∉ fill0 →
        (∀ pc ∈ chunks, pc.1 ≠ [] ∧ '\x7d' ∉ pc.1 ∧ '\x7b' ∉ pc.2) →
        '\x7b' ∉ post → '\x7d' ∉ payload → payload ≠ [] →
        (∃ ms, scanMatches ((fill0 ++ chunksText chunks) ++ '\x7b' :: (payload ++ '\x7d' :: post)) =
            ms ++ [((fill0 ++ chunksText chunks).length, payload)] ∧
          ms.map Prod.snd = chunks.map Prod.fst)
        ∧ extractInstruction ((fill0 ++ chunksText chunks) ++ '\x7b' :: (payload ++ '\x7d' :: post)) =
            (if (jsTrim payload).isEmpty then none
             else some ⟨trimR (trimR (fill0 ++ chunksText chunks) ++ post), jsTrim payload⟩))
    ∧ extractInstruction (str "1. First item \x7bexpand\x7d") =
        some ⟨str "1. First item", str "expand"⟩
    ∧ extractInstruction (str "a \x7bone\x7d b \x7btwo\x7d") =
        some ⟨str "a \x7bone\x7d b", str "two"⟩
    ∧ extractInstruction (str "x \x7b \x7d") = none
    ∧ extractInstruction (str "\x7b\x7d") = none
    ∧ extractInstruction (str "a \x7b b") = none := by
  refine ⟨?_, ?_, ?_, by decide, by decide, by decide, by decide, by decide⟩
  · intro t hnospan
    have hscan : scanMatches t = [] := by
      rcases hsc : scanMatches t with _ | ⟨⟨q, pl⟩, ms⟩
      · rfl
      · exfalso
        rw [scanMatches] at hsc
        obtain ⟨u, v, hdec, hne, hnotin⟩ := scan_sound t.length t 0 q pl ms hsc
        exact hnospan ⟨u, pl, v, hdec, hne, hnotin⟩
    rw [extractInstruction, hscan]
    rfl
  · intro t r hr
    rcases hsc : scanMatches t with _ | ⟨⟨q, pl⟩, ms⟩
    · simp [extractInstruction, hsc] at hr
    · rw [scanMatches] at hsc
      obtain ⟨u, v, hdec, hne, hnotin⟩ := scan_sound t.length t 0 q pl ms hsc
      exact ⟨u, pl, v, hdec, hne, hnotin⟩
  · intro fill0 chunks payload post h0 hch hpost hpay hne
    obtain ⟨ms, hms, hmap⟩ := scanMatches_decomp fill0 chunks payload post h0 hch hpost hpay hne
    refine ⟨⟨ms, hms, hmap⟩, ?_⟩
    rw [extractInstruction, hms]
    simp only [List.getLast?_concat]
    rw [if_neg (by simpa using hne)]
    by_cases ht : (jsTrim payload).isEmpty = true
    · rw [if_pos ht, if_pos ht]
    · rw [if_neg ht, if_neg ht]
      have htake : ((fill0 ++ chunksText chunks) ++ '\x7b' :: (payload ++ '\x7d' :: post)).take
          (fill0 ++ chunksText chunks).length = fill0 ++ chunksText chunks :=
        List.take_left _ _
      have hshape : (fill0 ++ chunksText chunks) ++ '\x7b' :: (payload ++ '\x7d' :: post) =
          ((fill0 ++ chunksText chunks) ++ '\x7b' :: (payload ++ ['\x7d'])) ++ post := by
        simp
      have hlen2 : (fill0 ++ chunksText chunks).length + payload.length + 2 =
          ((fill0 ++ chunksText chunks) ++ '\x7b' :: (payload ++ ['\x7d'])).length := by
        simp
        omega
      have hdrop : ((fill0 ++ chunksText chunks) ++ '\x7b' :: (payload ++ '\x7d' :: post)).drop
          ((fill0 ++ chunksText chunks).length + payload.length + 2) = post := by
        rw [hshape, hlen2, List.drop_left]
      rw [htake, hdrop]

/-- Witness for C4: the multi-span clause at the concrete text
`"a \x7bone\x7d b \x7btwo\x7d"` — one earlier complete span, then the last
span `two`. -/
theorem C4_extract_instruction_witness :
    (∃ ms, scanMatches ((str "a " ++ chunksText [(str "one", str " b ")]) ++
        '\x7b' :: (str "two" ++ '\x7d' :: [])) =
          ms ++ [((str "a " ++ chunksText [(str "one", str " b ")]).length, str "two")] ∧
        ms.map Prod.snd = [(str "one", str " b ")].map Prod.fst)
    ∧ extractInstruction ((str "a " ++ chunksText [(str "one", str " b ")]) ++
        '\x7b' :: (str "two" ++ '\x7d' :: [])) =
        (if (jsTrim (str "two")).isEmpty then none
         else some ⟨trimR (trimR (str "a " ++ chunksText [(str "one", str " b ")]) ++ []),
           jsTrim (str "two")⟩) :=
  C4_extract_instruction.2.2.1 (str "a ") [(str "one", str " b ")] (str "two") []
    (by decide) (by decide) (by decide) (by decide) (by decide)

theorem trimL_subset (s : Str) : ∀ c ∈ trimL s, c ∈ s :=
  fun _ hc => (List.dropWhile_sublist isWS).subset hc

theorem trimR_subset (s : Str) : ∀ c ∈ trimR s, c ∈ s := by
  intro c hc
  rw [trimR, List.mem_reverse] at hc
  exact List.mem_reverse.mp ((List.dropWhile_sublist isWS).subset hc)

theorem jsTrim_subset (s : Str) : ∀ c ∈ jsTrim s, c ∈ s :=
  fun c hc => trimL_subset s c (trimR_subset (trimL s) c hc)

theorem mem_splitOnChar (sep : Char) : ∀ (s : Str), ∀ piece ∈ splitOnChar sep s,
    ∀ c ∈ piece, c ∈ s := by
  intro s
  induction s with
  | nil =>
    intro piece hp c hc
    simp only [splitOnChar] at hp
    simp only [List.mem_singleton] at hp
    subst hp
    cases hc
  | cons d rest ih =>
    intro piece hp c hc
    rw [splitOnChar] at hp
    rcases hs : splitOnChar sep rest with _ | ⟨h, t⟩
    · exact absurd hs (splitOnChar_ne_nil sep rest)
    · rw [hs] at hp
      change piece ∈ (if (d == sep) = true then [] :: h :: t else (d :: h) :: t) at hp
      by_cases hd : (d == sep) = true
      · rw [if_pos hd] at hp
        rcases List.mem_cons.mp hp with h1 | h2
        · subst h1; cases hc
        · exact List.mem_cons_of_mem d (ih piece (hs ▸ h2) c hc)
      · rw [if_neg hd] at hp
        rcases List.mem_cons.mp hp with h1 | h2
        · subst h1
          rcases List.mem_cons.mp hc with h3 | h4
          · subst h3; exact List.mem_cons_self c rest
          · exact List.mem_cons_of_mem d
              (ih h (hs ▸ List.mem_cons_self h t) c h4)
        · exact List.mem_cons_of_mem d
            (ih piece (hs ▸ List.mem_cons_of_mem h h2) c hc)

theorem parseAnnotations_chars (line : Str) :
    ∀ a ∈ parseAnnotations line, ∀ c ∈ a, c ∈ line := by
  intro a ha c hc
  rw [parseAnnotations] at ha
  by_cases hinner : (jsTrim (jsSlice2Neg2 (jsTrim line))).isEmpty = true
  · rw [if_pos hinner] at ha
    cases ha
  · rw [if_neg hinner] at ha
    have ha' := (List.filter_sublist _).subset ha
    obtain ⟨piece, hpiece, rfl⟩ := List.mem_map.mp ha'
    have h1 : c ∈ piece := jsTrim_subset piece c hc
    have h2 : c ∈ jsTrim (jsSlice2Neg2 (jsTrim line)) :=
      mem_splitOnChar ',' _ piece hpiece c h1
    have h3 : c ∈ jsSlice2Neg2 (jsTrim line) := jsTrim_subset _ c h2
    have h4 : c ∈ jsTrim line := by
      rw [jsSlice2Neg2] at h3
      exact (List.drop_sublist _ _).subset ((List.take_sublist _ _).subset h3)
    exact jsTrim_subset line c h4

theorem mem_intercalate_sep (anns : List Str) :
    ∀ c ∈ List.intercalate (str ", ") anns, c = ',' ∨ c = ' ' ∨ ∃ a ∈ anns, c ∈ a := by
  induction anns with
  | nil => intro c hc; simp [List.intercalate] at hc
  | cons x rest ih =>
    intro c hc
    cases rest with
    | nil =>
      rw [intercalate_single] at hc
      exact Or.inr (Or.inr ⟨x, List.mem_cons_self x [], hc⟩)
    | cons y ys =>
      rw [intercalate_cons₂] at hc
      rcases List.mem_append.mp hc with h1 | h2
      · rcases List.mem_append.mp h1 with h3 | h4
        · exact Or.inr (Or.inr ⟨x, List.mem_cons_self x _, h3⟩)
        · rcases List.mem_cons.mp h4 with h5 | h6
          · exact Or.inl h5
          · simp only [List.mem_singleton] at h6
            exact Or.inr (Or.inl h6)
      · rcases ih c h2 with h | h | ⟨a, ha, hca⟩
        · exact Or.inl h
        · exact Or.inr (Or.inl h)
        · exact Or.inr (Or.inr ⟨a, List.mem_cons_of_mem x ha, hca⟩)

theorem formatAnnotations_no_newline (anns : List Str) (h : ∀ a ∈ anns, '\n' ∉ a) :
    '\n' ∉ formatAnnotations anns := by
  intro hc
  rw [formatAnnotations] at hc
  rcases List.mem_append.mp hc with h1 | h2
  · rcases List.mem_append.mp h1 with h3 | h4
    · simp [str] at h3
    · rcases mem_intercalate_sep anns '\n' h4 with h5 | h5 | ⟨a, ha, hca⟩
      · cases h5
      · cases h5
      · exact h a ha hca
  · simp [str] at h2

theorem splitLines_single (s : Str) (h : '\n' ∉ s) : splitLines s = [s] :=
  splitOnChar_no_sep '\n' s (fun c hc heq => h (heq ▸ hc))

theorem splitLines_append (a b : Str) (h : '\n' ∉ a) :
    splitLines (a ++ '\n' :: b) = a :: splitLines b :=
  splitOnChar_append_sep '\n' a b (fun c hc heq => h (heq ▸ hc))

theorem findAnnotationLine_some (doc : Doc) (p k : Nat)
    (hk : findAnnotationLine doc p = some k) :
    k = p + 1 ∧ k < doc.length ∧ isAnnotationLine (getLine doc k) = true := by
  simp only [findAnnotationLine] at hk
  by_cases h1 : doc.length ≤ p + 1
  · rw [if_pos h1] at hk; cases hk
  · rw [if_neg h1] at hk
    by_cases h2 : isAnnotationLine (getLine doc (p + 1)) = true
    · rw [if_pos h2] at hk
      injection hk with hk
      subst hk
      exact ⟨rfl, by omega, h2⟩
    · rw [if_neg h2] at hk; cases hk

theorem getLine_eq_getElem (doc : Doc) (i : Nat) (h : i < doc.length) :
    getLine doc i = doc[i] := by
  rw [getLine, List.getD_eq_getElem?_getD, List.getElem?_eq_getElem h]
  rfl

theorem getLine_mem (doc : Doc) (i : Nat) (h : i < doc.length) :
    getLine doc i ∈ doc := by
  rw [getLine_eq_getElem doc i h]
  exact List.getElem_mem h

theorem mergeAnnotations_cons (existing : List Str) (a : Str) (rest : List Str) :
    mergeAnnotations existing (a :: rest) =
      mergeAnnotations (if a ∈ existing then existing else existing ++ [a]) rest := rfl

theorem mergeAnnotations_spec : ∀ (newAnns existing : List Str),
    ∃ extra, mergeAnnotations existing newAnns = existing ++ extra ∧
      extra.Sublist newAnns ∧
      (∀ a ∈ extra, a ∈ newAnns ∧ a ∉ existing) ∧
      (∀ a ∈ newAnns, a ∉ existing → a ∈ extra) ∧
      extra.Nodup := by
  intro newAnns
  induction newAnns with
  | nil =>
    intro existing
    exact ⟨[], by simp [mergeAnnotations], List.Sublist.refl [], by simp, by simp, List.nodup_nil⟩
  | cons a rest ih =>
    intro existing
    rw [mergeAnnotations_cons]
    by_cases ha : a ∈ existing
    · rw [if_pos ha]
      obtain ⟨extra, he, hsub, hmem, hcov, hnd⟩ := ih existing
      refine ⟨extra, he, hsub.cons a, ?_, ?_, hnd⟩
      · intro x hx
        exact ⟨List.mem_cons_of_mem a (hmem x hx).1, (hmem x hx).2⟩
      · intro x hx hnx
        rcases List.mem_cons.mp hx with h1 | h2
        · subst h1; exact absurd ha hnx
        · exact hcov x h2 hnx
    · rw [if_neg ha]
      obtain ⟨extra, he, hsub, hmem, hcov, hnd⟩ := ih (existing ++ [a])
      refine ⟨a :: extra, ?_, hsub.cons₂ a, ?_, ?_, ?_⟩
      · rw [he]; simp
      · intro x hx
        rcases List.mem_cons.mp hx with h1 | h2
        · subst h1; exact ⟨List.mem_cons_self x rest, ha⟩
        · obtain ⟨hr, hnx⟩ := hmem x h2
          refine ⟨List.mem_cons_of_mem a hr, fun hc => hnx ?_⟩
          exact List.mem_append.mpr (Or.inl hc)
      · intro x hx hnx
        by_cases hxa : x = a
        · subst hxa; exact List.mem_cons_self x extra
        · have hr : x ∈ rest := by
            rcases List.mem_cons.mp hx with h1 | h2
            · exact absurd h1 hxa
            · exact h2
          have hnx' : x ∉ existing ++ [a] := by
            intro hc
            rcases List.mem_append.mp hc with h1 | h2
            · exact hnx h1
            · simp only [List.mem_singleton] at h2
              exact hxa h2
          exact List.mem_cons_of_mem a (hcov x hr hnx')
      · refine List.nodup_cons.mpr ⟨?_, hnd⟩
        intro hc
        have := (hmem a hc).2
        exact this (List.mem_append.mpr (Or.inr (List.mem_singleton.mpr rfl)))

theorem mergeAnnotations_count : ∀ (newAnns existing : List Str) (a : Str),
    List.count a (mergeAnnotations existing newAnns) =
      if a ∈ existing then List.count a existing
      else if a ∈ newAnns then 1 else 0 := by
  intro newAnns
  induction newAnns with
  | nil =>
    intro existing a
    by_cases ha : a ∈ existing
    · simp [mergeAnnotations, ha]
    · simp [mergeAnnotations, ha, List.count_eq_zero.mpr ha]
  | cons b rest ih =>
    intro existing a
    rw [mergeAnnotations_cons]
    by_cases hb : b ∈ existing
    · rw [if_pos hb, ih existing a]
      by_cases ha : a ∈ existing
      · rw [if_pos ha, if_pos ha]
      · rw [if_neg ha, if_neg ha]
        have hab : a ≠ b := fun hc => ha (hc ▸ hb)
        by_cases har : a ∈ rest
        · rw [if_pos har, if_pos (List.mem_cons_of_mem b har)]
        · rw [if_neg har, if_neg (fun hc => by
            rcases List.mem_cons.mp hc with h1 | h2
            · exact hab h1
            · exact har h2)]
    · rw [if_neg hb, ih (existing ++ [b]) a]
      by_cases hab : a = b
      · subst hab
        rw [if_pos (List.mem_append.mpr (Or.inr (List.mem_singleton.mpr rfl)))]
        rw [if_neg hb, if_pos (List.mem_cons_self a rest)]
        rw [List.count_append, List.count_eq_zero.mpr hb, List.count_singleton]
        simp
      · have hmem_iff : (a ∈ existing ++ [b]) ↔ a ∈ existing := by
          constructor
          · intro hc
            rcases List.mem_append.mp hc with h1 | h2
            · exact h1
            · simp only [List.mem_singleton] at h2
              exact absurd h2 hab
          · intro hc
            exact List.mem_append.mpr (Or.inl hc)
        by_cases ha : a ∈ existing
        · rw [if_pos (hmem_iff.mpr ha), if_pos ha]
          rw [List.count_append, List.count_singleton]
          have : (b == a) = false := by
            simp only [beq_eq_false_iff_ne, ne_eq]
            exact fun hc => hab hc.symm
          rw [this]
          simp
        · rw [if_neg (fun hc => ha (hmem_iff.mp hc)), if_neg ha]
          have hcons : (a ∈ b :: rest) ↔ a ∈ rest := by
            constructor
            · intro hc
              rcases List.mem_cons.mp hc with h1 | h2
              · exact absurd h1 hab
              · exact h2
            · exact List.mem_cons_of_mem b
          by_cases har : a ∈ rest
          · rw [if_pos har, if_pos (hcons.mpr har)]
          · rw [if_neg har, if_neg (fun hc => har (hcons.mp hc))]

theorem appendAnnotations_found (doc : Doc) (p k : Nat) (newAnns : List Str)
    (hk : findAnnotationLine doc p = some k)
    (hdoc : ∀ l ∈ doc, '\n' ∉ l) (hnew : ∀ a ∈ newAnns, '\n' ∉ a) :
    appendAnnotations doc p newAnns =
      doc.set k (formatAnnotations
        (mergeAnnotations (parseAnnotations (getLine doc k)) newAnns)) := by
  obtain ⟨-, hklt, -⟩ := findAnnotationLine_some doc p k hk
  rw [appendAnnotations, hk]
  have hmergechars : ∀ a ∈ mergeAnnotations (parseAnnotations (getLine doc k)) newAnns,
      '\n' ∉ a := by
    obtain ⟨extra, he, _, hmem, _, _⟩ := mergeAnnotations_spec newAnns (parseAnnotations (getLine doc k))
    rw [he]
    intro a ha hc
    rcases List.mem_append.mp ha with h1 | h2
    · exact hdoc (getLine doc k) (getLine_mem doc k hklt)
        (parseAnnotations_chars (getLine doc k) a h1 '\n' hc)
    · exact hnew a (hmem a h2).1 hc
  have hfmt : '\n' ∉ formatAnnotations
      (mergeAnnotations (parseAnnotations (getLine doc k)) newAnns) :=
    formatAnnotations_no_newline _ hmergechars
  simp only [applyRange]
  simp only [List.take_zero, List.drop_length, List.nil_append, List.append_nil]
  rw [splitLines_single _ hfmt]
  rw [List.set_eq_take_cons_drop _ hklt]
  simp

theorem appendAnnotations_missing (doc : Doc) (p : Nat) (newAnns : List Str)
    (hk : findAnnotationLine doc p = none) (hp : p < doc.length)
    (hdoc : ∀ l ∈ doc, '\n' ∉ l) (hnew : ∀ a ∈ newAnns, '\n' ∉ a) :
    appendAnnotations doc p newAnns =
      doc.take (p + 1) ++ formatAnnotations newAnns :: doc.drop (p + 1) := by
  rw [appendAnnotations, hk]
  have hline : '\n' ∉ getLine doc p := hdoc (getLine doc p) (getLine_mem doc p hp)
  have hfmt : '\n' ∉ formatAnnotations newAnns := formatAnnotations_no_newline _ hnew
  simp only [applyRange]
  simp only [List.take_length, List.drop_length, List.append_nil]
  rw [splitLines_append _ _ hline, splitLines_single _ hfmt]
  have htakes : doc.take (p + 1) = doc.take p ++ [getLine doc p] := by
    rw [List.take_succ, List.getElem?_eq_getElem hp, getLine_eq_getElem doc p hp]
    rfl
  rw [htakes]
  simp

/-- Claim C5 (confirmed): `appendAnnotations` merges into an existing
annotation-marker line — the decoded items followed by exactly the fresh
members of `newItems` (string equality, order preserved, no existing item
repeated, no duplicate appended) — rewriting that one line in place; when
no marker line follows the paragraph it inserts one new line encoding
`newItems` directly after `paragraphEndLine`. Lines and items are
newline-free, as document lines are. -/
theorem C5_append_annotations (doc : Doc) (pEnd : Nat) (newAnns : List Str)
    (hdoc : ∀ l ∈ doc, '\n' ∉ l) (hnew : ∀ a ∈ newAnns, '\n' ∉ a) :
    (∀ k, findAnnotationLine doc pEnd = some k →
      ∃ extra,
        appendAnnotations doc pEnd newAnns =
          doc.set k (formatAnnotations (parseAnnotations (getLine doc k) ++ extra)) ∧
        extra.Sublist newAnns ∧
        (∀ a ∈ extra, a ∈ newAnns ∧ a ∉ parseAnnotations (getLine doc k)) ∧
        (∀ a ∈ newAnns, a ∉ parseAnnotations (getLine doc k) → a ∈ extra) ∧
        extra.Nodup)
    ∧ (findAnnotationLine doc pEnd = none → pEnd < doc.length →
        appendAnnotations doc pEnd newAnns =
          doc.take (pEnd + 1) ++ formatAnnotations newAnns :: doc.drop (pEnd + 1)) := by
  constructor
  · intro k hk
    obtain ⟨extra, he, hsub, hmem, hcov, hnd⟩ :=
      mergeAnnotations_spec newAnns (parseAnnotations (getLine doc k))
    refine ⟨extra, ?_, hsub, hmem, hcov, hnd⟩
    rw [appendAnnotations_found doc pEnd k newAnns hk hdoc hnew, he]
  · intro hk hp
    exact appendAnnotations_missing doc pEnd newAnns hk hp hdoc hnew

/-- Witness for C5: merging `["b", "a"]` into the marker line `%%a%%`
appends only `b`. -/
theorem C5_append_annotations_witness :
    ∃ extra,
      appendAnnotations [str "p", str "%%a%%"] 0 [str "b", str "a"] =
        [str "p", str "%%a%%"].set 1 (formatAnnotations
          (parseAnnotations (getLine [str "p", str "%%a%%"] 1) ++ extra)) ∧
      extra.Sublist [str "b", str "a"] ∧
      (∀ a ∈ extra, a ∈ [str "b", str "a"] ∧
        a ∉ parseAnnotations (getLine [str "p", str "%%a%%"] 1)) ∧
      (∀ a ∈ [str "b", str "a"],
        a ∉ parseAnnotations (getLine [str "p", str "%%a%%"] 1) → a ∈ extra) ∧
      extra.Nodup :=
  (C5_append_annotations [str "p", str "%%a%%"] 0 [str "b", str "a"]
    (by decide) (by decide)).1 1 (by decide)

/-- Claim C10 (confirmed): duplicates inside `newItems` are collapsed when
an annotation line exists (each item is checked against the growing merged
list, so any item lands at most once), but are written verbatim — repeated —
into the fresh marker line when no annotation line exists. -/
theorem C10_duplicate_handling :
    (∀ (existing newAnns : List Str) (a : Str),
      List.count a (mergeAnnotations existing newAnns) =
        if a ∈ existing then List.count a existing
        else if a ∈ newAnns then 1 else 0)
    ∧ (∀ (doc : Doc) (pEnd : Nat) (newAnns : List Str),
        (∀ l ∈ doc, '\n' ∉ l) → (∀ a ∈ newAnns, '\n' ∉ a) →
        findAnnotationLine doc pEnd = none → pEnd < doc.length →
        appendAnnotations doc pEnd newAnns =
          doc.take (pEnd + 1) ++ formatAnnotations newAnns :: doc.drop (pEnd + 1))
    ∧ appendAnnotations [str "p", str "%%a%%"] 0 [str "b", str "b"] =
        [str "p", str "%%a, b%%"]
    ∧ appendAnnotations [str "p"] 0 [str "b", str "b"] =
        [str "p", str "%%b, b%%"]
    ∧ List.count (str "b") (parseAnnotations (str "%%b, b%%")) = 2 := by
  refine ⟨fun existing newAnns a => mergeAnnotations_count newAnns existing a,
    fun doc pEnd newAnns hdoc hnew hk hp =>
      appendAnnotations_missing doc pEnd newAnns hk hp hdoc hnew,
    by decide, by decide, by decide⟩

/-- Witness for C10: an internal duplicate merged into an existing line
lands exactly once. -/
theorem C10_duplicate_handling_witness :
    List.count (str "b") (mergeAnnotations [str "a"] [str "b", str "b"]) = 1 :=
  (C10_duplicate_handling.1 [str "a"] [str "b", str "b"] (str "b")).trans (by decide)

/-- Claim C8 (corrected): `gatherSurroundingContext` assembles exactly the
claimed segments — far heading, up to 10 lines before, up to 5 lines after,
blank-line separated — but additionally trims the assembled string, which
the claim omits (see the counterexample); a single-line document yields the
empty string. -/
theorem C8_gather_context :
    (∀ (doc : Doc) (s e : Nat), gatherSurroundingContext doc s e = contextFromClaim doc s e)
    ∧ (∀ l : Str, gatherSurroundingContext [l] 0 0 = []) := by
  constructor
  · intro doc s e
    simp only [gatherSurroundingContext, contextFromClaim]
    have h1 : (match headingAbove doc s with
        | some h => if h < s - 10 then [getLine doc h] else []
        | none => ([] : List Str)) =
        (match headingAbove doc s with
        | some h => if 10 < s - h then [getLine doc h] else []
        | none => ([] : List Str)) := by
      rcases hh : headingAbove doc s with _ | h
      · simp only [hh]
      · simp only [hh]
        by_cases hlt : h < s - 10
        · rw [if_pos hlt, if_pos (by omega)]
        · rw [if_neg hlt, if_neg (by omega)]
    have h2 : (if ((List.range' (s - 10) (s - (s - 10))).map (getLine doc)).isEmpty then ([] : List Str)
        else [List.intercalate (str "\n") ((List.range' (s - 10) (s - (s - 10))).map (getLine doc))]) =
        (if s = 0 then ([] : List Str)
        else [List.intercalate (str "\n") ((List.range' (s - 10) (s - (s - 10))).map (getLine doc))]) := by
      by_cases hs : s = 0
      · subst hs
        simp
      · rw [if_neg hs, if_neg (by
          simp only [List.isEmpty_iff, List.map_eq_nil_iff, List.range'_eq_nil]
          omega)]
    have h3 : (if ((List.range' (e + 1) (min (doc.length - 1) (e + 5) + 1 - (e + 1))).map (getLine doc)).isEmpty
          then ([] : List Str)
        else [List.intercalate (str "\n")
          ((List.range' (e + 1) (min (doc.length - 1) (e + 5) + 1 - (e + 1))).map (getLine doc))]) =
        (if e + 2 ≤ doc.length then
          [List.intercalate (str "\n")
            ((List.range' (e + 1) (min (doc.length - 1) (e + 5) + 1 - (e + 1))).map (getLine doc))]
        else ([] : List Str)) := by
      by_cases he : e + 2 ≤ doc.length
      · rw [if_pos he, if_neg (by
          simp only [List.isEmpty_iff, List.map_eq_nil_iff, List.range'_eq_nil]
          omega)]
      · rw [if_neg he, if_pos (by
          simp only [List.isEmpty_iff, List.map_eq_nil_iff, List.range'_eq_nil]
          omega)]
    rw [h1, h2, h3]
  · intro l
    simp [gatherSurroundingContext, headingAbove, jsTrim, trimL, trimR, List.intercalate]

/-- Witness for C8: the amended description at a one-line document. -/
theorem C8_gather_context_witness :
    gatherSurroundingContext [str "only"] 0 0 = contextFromClaim [str "only"] 0 0 :=
  C8_gather_context.1 [str "only"] 0 0

/-- Counterexample for C8 as stated: on `["", "t", "x"]` with bounds
`{1, 1}` the code returns `"x"`, while the claimed untrimmed concatenation
of the before-segment (the blank line 0) and the after-segment is
`"\n\nx"`. -/
theorem C8_counterexample :
    gatherSurroundingContext [str "", str "t", str "x"] 1 1 = str "x" ∧
    gatherSurroundingContext [str "", str "t", str "x"] 1 1 ≠
      List.intercalate (str "\n\n")
        [List.intercalate (str "\n") [getLine [str "", str "t", str "x"] 0], str "x"] := by
  decide

/-- Claim C7 (confirmed): in the rewrite and inspire flows every failed
precondition check (no bounds, no annotation line, empty annotation list,
no instruction, empty formatted response) and every failed completion
leaves the document unchanged; the single range-replace happens only on a
successful completion, and then it is exactly the mutator's one call. -/
theorem C7_no_mutation_on_failure :
    (∀ (doc : Doc) (line : Nat) (e : Str),
      rewriteCommand doc line (Except.error e) = doc ∧
      inspireCommand doc line (Except.error e) = doc)
    ∧ (∀ (doc : Doc) (line : Nat) (c : Except Str Str),
        findParagraphBoundsNear doc line = none →
        rewriteCommand doc line c = doc ∧ inspireCommand doc line c = doc)
    ∧ (∀ (doc : Doc) (line : Nat) (c : Except Str Str) (b : ParagraphBounds),
        findParagraphBoundsNear doc line = some b →
        findAnnotationLine doc b.endLine = none →
        rewriteCommand doc line c = doc)
    ∧ (∀ (doc : Doc) (line : Nat) (c : Except Str Str) (b : ParagraphBounds) (k : Nat),
        findParagraphBoundsNear doc line = some b →
        findAnnotationLine doc b.endLine = some k →
        parseAnnotations (getLine doc k) = [] →
        rewriteCommand doc line c = doc)
    ∧ (∀ (doc : Doc) (line : Nat) (c : Except Str Str) (b : ParagraphBounds),
        findParagraphBoundsNear doc line = some b →
        extractInstruction (getParagraphText doc b.startLine b.endLine) = none →
        inspireCommand doc line c = doc)
    ∧ (∀ (doc : Doc) (line : Nat) (r : Str) (b : ParagraphBounds) (ex : Extracted),
        findParagraphBoundsNear doc line = some b →
        extractInstruction (getParagraphText doc b.startLine b.endLine) = some ex →
        formatInspireResponse r
          (if isListItem ex.cleanedText then (extractMarkdownPrefix ex.cleanedText).pfx.length
           else 0) = [] →
        inspireCommand doc line (Except.ok r) = doc)
    ∧ (∀ (doc : Doc) (line : Nat) (r : Str) (b : ParagraphBounds) (k : Nat),
        findParagraphBoundsNear doc line = some b →
        findAnnotationLine doc b.endLine = some k →
        parseAnnotations (getLine doc k) ≠ [] →
        rewriteCommand doc line (Except.ok r) =
          applyRange doc (replaceParagraphAndRemoveAnnotations doc b.startLine b.endLine
            (some k)
            ((extractMarkdownPrefix (getParagraphText doc b.startLine b.endLine)).pfx ++ r)))
    ∧ (∀ (doc : Doc) (line : Nat) (r : Str) (b : ParagraphBounds) (ex : Extracted),
        findParagraphBoundsNear doc line = some b →
        extractInstruction (getParagraphText doc b.startLine b.endLine) = some ex →
        formatInspireResponse r
          (if isListItem ex.cleanedText then (extractMarkdownPrefix ex.cleanedText).pfx.length
           else 0) ≠ [] →
        inspireCommand doc line (Except.ok r) =
          applyRange doc (replaceParagraphWithInspiration doc b.startLine b.endLine
            ex.cleanedText
            (formatInspireResponse r
              (if isListItem ex.cleanedText then (extractMarkdownPrefix ex.cleanedText).pfx.length
               else 0)))) := by
  refine ⟨?_, ?_, ?_, ?_, ?_, ?_, ?_, ?_⟩
  · intro doc line e
    constructor
    · rcases hb : findParagraphBoundsNear doc line with _ | b
      · simp only [rewriteCommand, hb]
      · simp only [rewriteCommand, hb]
        rcases hk : findAnnotationLine doc b.endLine with _ | k
        · simp only [hk]
        · simp only [hk]
          by_cases ha : (parseAnnotations (getLine doc k)).isEmpty = true
          · rw [if_pos ha]
          · rw [if_neg ha]
    · rcases hb : findParagraphBoundsNear doc line with _ | b
      · simp only [inspireCommand, hb]
      · simp only [inspireCommand, hb]
        rcases hx : extractInstruction (getParagraphText doc b.startLine b.endLine) with _ | ex
        · simp only [hx]
        · simp only [hx]
  · intro doc line c hb
    exact ⟨by simp only [rewriteCommand, hb], by simp only [inspireCommand, hb]⟩
  · intro doc line c b hb hk
    simp only [rewriteCommand, hb, hk]
  · intro doc line c b k hb hk ha
    simp only [rewriteCommand, hb, hk, ha, List.isEmpty_nil, if_true]
  · intro doc line c b hb hx
    simp only [inspireCommand, hb, hx]
  · intro doc line r b ex hb hx hf
    simp only [inspireCommand, hb, hx]
    rw [hf]
    simp
  · intro doc line r b k hb hk ha
    simp only [rewriteCommand, hb, hk]
    rw [if_neg (by simpa using ha)]
  · intro doc line r b ex hb hx hf
    simp only [inspireCommand, hb, hx]
    rw [if_neg (by simpa using hf)]

/-- Witness for C7: a failed completion leaves a concrete document unchanged. -/
theorem C7_no_mutation_on_failure_witness :
    rewriteCommand [str "p"] 0 (Except.error (str "bad")) = [str "p"] :=
  (C7_no_mutation_on_failure.1 [str "p"] 0 (str "bad")).1

end Coo
